import Mathlib

/-! MlActions: undo/redo history with linked auxiliary lists.

A shallow embedding of `src/src/MlActions.hpp`.

* `Action` is the class hierarchy `Action` / `BundledAction` /
  `ActionListLink<T>::LinkedAction`, as a closed inductive type.  A leaf stands
  for a user action such as `test_Action1` of `src/src/test.cpp`: it carries a
  payload and the answer of its `canUndo()` override.
* `ActionList` is the history (`actions`, `position`).
* `ActionListLink T` is a linked list of values (`data`, `position`).  The
  `link` pointer of a `LinkedAction` is the index of the link among the links
  bound to the history, in construction order; this is also the order in which
  `clearFutureListener` runs their subscribers (a `std::map` keyed by a counter).
* `World T` is the heap the C++ objects live in: one history, the links bound
  to it, and the trace of virtual `undo()` / `redo()` calls made so far.
* `std::vector::at` throws `std::out_of_range`; an operation that throws is
  `none`.
* `size_t` is 64 bits wide.  The additions `index + 1` on a proxy's tag, which
  the public `LinkedAction` constructor lets a caller choose freely, wrap
  modulo `2 ^ 64`; positions and sizes are bounded by the vectors they index
  and never reach the wrap.
* The only subscribers are the ones the library registers itself (the link
  constructor's future-cleared handler); `addListener` has none.
-/

namespace MlActions

/-- The `Action` class hierarchy. -/
inductive Action where
  | leaf (x : Int) (undoable : Bool)
  | bundled (actions : List Action)
  | linked (link : Nat) (index : Nat)

/-- One virtual call on an action, as recorded in the trace. -/
inductive Event where
  | undo (a : Action)
  | redo (a : Action)

/-- The history: `ActionList::actions` and `ActionList::position`. -/
structure ActionList where
  actions : List Action
  position : Nat

/-- A linked auxiliary list: `ActionListLink<T>::data` and `::position`. -/
structure ActionListLink (T : Type) where
  data : List T
  position : Nat

/-- The program state: the history, the links bound to it and the call trace. -/
structure World (T : Type) where
  list : ActionList
  links : List (ActionListLink T)
  trace : List Event

mutual
/-- `Action::canUndo`, with the `BundledAction` override. -/
def Action.canUndo : Action → Bool
  | .leaf _ u => u
  | .bundled cs => Action.canUndoAll cs
  | .linked _ _ => true
/-- The loop of `BundledAction::canUndo`. -/
def Action.canUndoAll : List Action → Bool
  | [] => true
  | c :: cs => if !(Action.canUndo c) then false else Action.canUndoAll cs
end

/-- `n` calls of `pop_back`. -/
def popBackN {α : Type} : Nat → List α → List α
  | 0, xs => xs
  | n + 1, xs => popBackN n xs.dropLast

/-- The loop `for (i = position; i < size; i++) pop_back()` of both `clearFuture`s. -/
def truncateFrom {α : Type} (position : Nat) (xs : List α) : List α :=
  popBackN (xs.length - position) xs

/-- `ActionListLink::clearFuture`. -/
def ActionListLink.clearFuture {T : Type} (k : ActionListLink T) : ActionListLink T :=
  { k with data := truncateFrom k.position k.data }

/-- The number of values of `size_t`: unsigned arithmetic is modulo this. -/
def sizeModulus : Nat := 2 ^ 64

/-- The loop of `ActionListLink::sync`: `for (i = list.position; i--;)`, started at `i`
with the link's position `pos`; `position = linked_action->index + 1` is a `size_t`
addition. -/
def syncLoop (actions : List Action) (me : Nat) : Nat → Nat → Option Nat
  | 0, pos => some pos
  | i + 1, pos =>
    match actions.get? i with
    | none => none
    | some (Action.linked l idx) =>
      if l = me then syncLoop actions me i ((idx + 1) % sizeModulus)
      else syncLoop actions me i pos
    | some _ => syncLoop actions me i pos

namespace World

variable {T : Type}

/-- Append an event to the trace. -/
def log (w : World T) (e : Event) : World T :=
  { w with trace := w.trace ++ [e] }

/-- Replace link `me`. -/
def setLink (w : World T) (me : Nat) (k : ActionListLink T) : World T :=
  { w with links := w.links.set me k }

/-- `ActionListLink::sync` of link `me`. -/
def sync (me : Nat) (w : World T) : Option (World T) :=
  match w.links.get? me with
  | none => none
  | some k =>
    match syncLoop w.list.actions me w.list.position k.position with
    | none => none
    | some p => some (w.setLink me { k with position := p })

/-- `ActionListLink::clearFuture` of link `me`. -/
def linkClearFuture (me : Nat) (w : World T) : Option (World T) :=
  match w.links.get? me with
  | none => none
  | some k => some (w.setLink me k.clearFuture)

/-- `LinkedAction::redo`: `link->position = index + 1`, a `size_t` addition. -/
def linkedRedo (me index : Nat) (w : World T) : Option (World T) :=
  match w.links.get? me with
  | none => none
  | some k => some (w.setLink me { k with position := (index + 1) % sizeModulus })

end World

mutual
/-- The virtual call `action->undo()`. -/
def Action.undo {T : Type} : Action → World T → Option (World T)
  | .leaf x u, w => some (w.log (.undo (.leaf x u)))
  | .bundled cs, w => Action.undoAll cs (w.log (.undo (.bundled cs)))
  | .linked l i, w => World.sync l (w.log (.undo (.linked l i)))
/-- The loop of `BundledAction::undo`. -/
def Action.undoAll {T : Type} : List Action → World T → Option (World T)
  | [], w => some w
  | c :: cs, w =>
    match Action.undo c w with
    | none => none
    | some w1 => Action.undoAll cs w1
end

mutual
/-- The virtual call `action->redo()`. -/
def Action.redo {T : Type} : Action → World T → Option (World T)
  | .leaf x u, w => some (w.log (.redo (.leaf x u)))
  | .bundled cs, w => Action.redoAll cs (w.log (.redo (.bundled cs)))
  | .linked l i, w => World.linkedRedo l i (w.log (.redo (.linked l i)))
/-- The loop of `BundledAction::redo`. -/
def Action.redoAll {T : Type} : List Action → World T → Option (World T)
  | [], w => some w
  | c :: cs, w =>
    match Action.redo c w with
    | none => none
    | some w1 => Action.redoAll cs w1
end

namespace ActionList

/-- `ActionList::canUndo`: `position > 0 && actions.at(position - 1)->canUndo()`. -/
def canUndo (l : ActionList) : Option Bool :=
  if l.position > 0 then
    match l.actions.get? (l.position - 1) with
    | none => none
    | some a => some a.canUndo
  else some false

/-- `ActionList::canRedo`: `position < actions.size()`. -/
def canRedo (l : ActionList) : Bool :=
  decide (l.position < l.actions.length)

end ActionList

namespace World

variable {T : Type}

/-- The empty history with no link bound. -/
def empty : World T :=
  { list := { actions := [], position := 0 }, links := [], trace := [] }

/-- The constructor of `ActionListLink`: a fresh link, subscribed after the links
already bound.  Its identity is `w.links.length`. -/
def newLink (w : World T) : World T :=
  { w with links := w.links ++ [{ data := [], position := 0 }] }

/-- Run the future-cleared subscribers of the links `ids`, in that order: each is
`this->sync(); this->clearFuture();`. -/
def runListeners : List Nat → World T → Option (World T)
  | [], w => some w
  | me :: rest, w =>
    match w.sync me with
    | none => none
    | some w1 =>
      match w1.linkClearFuture me with
      | none => none
      | some w2 => runListeners rest w2

/-- The call `clearFutureListener()`. -/
def notifyFutureCleared (w : World T) : Option (World T) :=
  runListeners (List.range w.links.length) w

/-- `ActionList::clearFuture`. -/
def clearFuture (w : World T) : Option (World T) :=
  notifyFutureCleared
    { w with list := { w.list with actions := truncateFrom w.list.position w.list.actions } }

/-- `ActionList::undo`. -/
def undo (w : World T) : Option (World T) :=
  match w.list.canUndo with
  | none => none
  | some false => some w
  | some true =>
    match w.list.actions.get? (w.list.position - 1) with
    | none => none
    | some a => a.undo { w with list := { w.list with position := w.list.position - 1 } }

/-- `ActionList::redo`. -/
def redo (w : World T) : Option (World T) :=
  if w.list.canRedo then
    match w.list.actions.get? (w.list.position + 1 - 1) with
    | none => none
    | some a => a.redo { w with list := { w.list with position := w.list.position + 1 } }
  else some w

/-- `ActionList::add`: notify (no subscriber), `clearFuture()`, `push_back`, `redo()`. -/
def add (a : Action) (w : World T) : Option (World T) :=
  match w.clearFuture with
  | none => none
  | some w1 => redo { w1 with list := { w1.list with actions := w1.list.actions ++ [a] } }

/-- `ActionListLink::addAction` of link `me`. -/
def addAction (me : Nat) (v : T) (w : World T) : Option (World T) :=
  match w.linkClearFuture me with
  | none => none
  | some w1 =>
    match w1.links.get? me with
    | none => none
    | some k1 =>
      match w1.add (Action.linked me k1.data.length) with
      | none => none
      | some w2 =>
        match w2.links.get? me with
        | none => none
        | some k2 =>
          some (w2.setLink me { data := k2.data ++ [v], position := (k2.data ++ [v]).length })

end World

/-- The public calls on a history and its links. -/
inductive Op (T : Type) where
  | add (a : Action)
  | clearFuture
  | undo
  | redo
  | addAction (me : Nat) (v : T)

namespace World

variable {T : Type}

/-- Perform one public call. -/
def step (w : World T) : Op T → Option (World T)
  | .add a => w.add a
  | .clearFuture => w.clearFuture
  | .undo => w.undo
  | .redo => w.redo
  | .addAction me v => w.addAction me v

/-- Perform the public calls `ops`, first to last. -/
def run : List (Op T) → World T → Option (World T)
  | [], w => some w
  | op :: ops, w =>
    match w.step op with
    | none => none
    | some w1 => run ops w1

end World

mutual
/-- Every proxy inside the action names one of the first `n` links. -/
def Action.bound (n : Nat) : Action → Bool
  | .leaf _ _ => true
  | .bundled cs => Action.boundAll n cs
  | .linked l _ => decide (l < n)
/-- Every proxy inside the actions names one of the first `n` links. -/
def Action.boundAll (n : Nat) : List Action → Bool
  | [] => true
  | c :: cs => Action.bound n c && Action.boundAll n cs
end

mutual
/-- The virtual calls made by one `action->undo()`, in call order. -/
def Action.undoCalls : Action → List Event
  | .leaf x u => [.undo (.leaf x u)]
  | .bundled cs => .undo (.bundled cs) :: Action.undoCallsAll cs
  | .linked l i => [.undo (.linked l i)]
/-- The virtual calls made by undoing each action in turn. -/
def Action.undoCallsAll : List Action → List Event
  | [] => []
  | c :: cs => Action.undoCalls c ++ Action.undoCallsAll cs
end

mutual
/-- The virtual calls made by one `action->redo()`, in call order. -/
def Action.redoCalls : Action → List Event
  | .leaf x u => [.redo (.leaf x u)]
  | .bundled cs => .redo (.bundled cs) :: Action.redoCallsAll cs
  | .linked l i => [.redo (.linked l i)]
/-- The virtual calls made by redoing each action in turn. -/
def Action.redoCallsAll : List Action → List Event
  | [] => []
  | c :: cs => Action.redoCalls c ++ Action.redoCallsAll cs
end

/-- The state right after construction: an empty history with `n` links bound. -/
def World.fresh {T : Type} : Nat → World T
  | 0 => World.empty
  | n + 1 => (World.fresh n).newLink

namespace ActionListLink

variable {T : Type}

/-- The values passed to `func` by a loop `func(data.at(i))` over `count` consecutive
indices starting at `i`; `none` when an index is out of range. -/
def visitFrom (data : List T) : Nat → Nat → Option (List T)
  | 0, _ => some []
  | count + 1, i =>
    match data.get? i with
    | none => none
    | some v =>
      match visitFrom data count (i + 1) with
      | none => none
      | some vs => some (v :: vs)

/-- `ActionListLink::visit`: every value, in order. -/
def visit (k : ActionListLink T) : Option (List T) :=
  some k.data

/-- `ActionListLink::visitPast`: `for (i = 0; i < position; i++) func(data.at(i))`. -/
def visitPast (k : ActionListLink T) : Option (List T) :=
  visitFrom k.data k.position 0

/-- `ActionListLink::visitFuture`: `for (i = position; i < data.size(); i++) func(data.at(i))`. -/
def visitFuture (k : ActionListLink T) : Option (List T) :=
  visitFrom k.data (k.data.length - k.position) k.position

end ActionListLink

/-- The action is a proxy (`LinkedAction`) of link `me`. -/
def Action.isProxyOf (me : Nat) : Action → Bool
  | .linked l _ => decide (l = me)
  | _ => false

/-- The resync law in the specification's words: one plus the tagged index of the
first proxy of link `me` met when scanning backward from just below `position`, or zero
when there is none. -/
def expectedPosition (actions : List Action) (me : Nat) : Nat → Nat
  | 0 => 0
  | i + 1 =>
    match actions.get? i with
    | some (Action.linked l idx) =>
      if l = me then idx + 1 else expectedPosition actions me i
    | _ => expectedPosition actions me i

/-- The history of `src/src/test.cpp` before its last commit: three commits, two undone. -/
def exampleHistory : World Nat :=
  { list := { actions := [.leaf 1 true, .leaf 2 true, .leaf 3 true], position := 1 },
    links := [{ data := [], position := 0 }],
    trace := [] }

/-- A history holding a leaf and two proxies of link 0, all applied. -/
def exampleLinked : World Nat :=
  { list := { actions := [.leaf 1 true, .linked 0 0, .linked 0 1], position := 3 },
    links := [{ data := [42, 64], position := 2 }],
    trace := [] }

/-- A history holding a leaf and two proxies of link 0, the last one undone. -/
def exampleUndone : World Nat :=
  { list := { actions := [.leaf 1 true, .linked 0 0, .linked 0 1], position := 2 },
    links := [{ data := [42, 64], position := 1 }],
    trace := [] }

/-- A fresh link after `addAction(10)`. -/
def oneValue : World Nat :=
  { list := { actions := [.linked 0 0], position := 1 },
    links := [{ data := [10], position := 1 }],
    trace := [.redo (.linked 0 0)] }

/-- A fresh link after `addAction(10)`, `addAction(20)`. -/
def twoValues : World Nat :=
  { list := { actions := [.linked 0 0, .linked 0 1], position := 2 },
    links := [{ data := [10, 20], position := 2 }],
    trace := [.redo (.linked 0 0), .redo (.linked 0 1)] }

/-- A fresh link after `addAction(10)`, `addAction(20)`, `addAction(30)`. -/
def threeCalls : World Nat :=
  { list := { actions := [.linked 0 0, .linked 0 1, .linked 0 2], position := 3 },
    links := [{ data := [10, 30], position := 2 }],
    trace := [.redo (.linked 0 0), .redo (.linked 0 1), .redo (.linked 0 2)] }

/-- The empty history after one commit of a leaf, no link bound yet. -/
def oneCommit : World Nat :=
  { list := { actions := [.leaf 1 true], position := 1 },
    links := [],
    trace := [.redo (.leaf 1 true)] }

/-- A link bound to `oneCommit`, after `addAction(42)`. -/
def testOne : World Nat :=
  { list := { actions := [.leaf 1 true, .linked 0 0], position := 2 },
    links := [{ data := [42], position := 1 }],
    trace := [.redo (.leaf 1 true), .redo (.linked 0 0)] }

/-- A link bound to `oneCommit`, after `addAction(42)`, `addAction(64)`: the state
`src/src/test.cpp` reaches before its last `undo`. -/
def testTwo : World Nat :=
  { list := { actions := [.leaf 1 true, .linked 0 0, .linked 0 1], position := 3 },
    links := [{ data := [42, 64], position := 2 }],
    trace := [.redo (.leaf 1 true), .redo (.linked 0 0), .redo (.linked 0 1)] }

/-- The state `src/src/test.cpp` ends in: `testTwo` after one `undo`. -/
def testUndone : World Nat :=
  { list := { actions := [.leaf 1 true, .linked 0 0, .linked 0 1], position := 2 },
    links := [{ data := [42, 64], position := 1 }],
    trace := [.redo (.leaf 1 true), .redo (.linked 0 0), .redo (.linked 0 1),
      .undo (.linked 0 1)] }

/-- `BundledAction::add` on the children of a composite: `actions.push_back(action)`. -/
def BundledAction.add (actions : List Action) (action : Action) : List Action :=
  actions ++ [action]

/-- The action is a `BundledAction` (the `dynamic_cast` of `detail::visitAction`). -/
def Action.isBundled : Action → Bool
  | .bundled _ => true
  | _ => false

namespace detail

/-- `detail::visitActions`: `func` is called on each action in turn; the result is
the sequence of its arguments. -/
def visitActions (actions : List Action) : List Action :=
  actions

/-- `detail::visitAction`: a composite is replaced by its children, any other action is
passed to `func` itself. -/
def visitAction : Action → List Action
  | .bundled cs => visitActions cs
  | a => [a]

end detail

/-- `ActionList::visit`: `detail::visitActions(func, actions)`. -/
def ActionList.visit (l : ActionList) : List Action :=
  detail.visitActions l.actions

/-- The traversal in the specification's words: each top-level composite unrolled into
its children, every other action as it is. -/
def unrolledOneLevel (actions : List Action) : List Action :=
  (actions.map detail.visitAction).flatten

/-- The tag of the first proxy of link `me` in the list, if there is one. -/
def firstProxyTag (me : Nat) : List Action → Option Nat
  | [] => none
  | .linked l idx :: rest => if l = me then some idx else firstProxyTag me rest
  | _ :: rest => firstProxyTag me rest

/-- The tags of the proxies of link `me`, in list order. -/
def proxyTags (me : Nat) : List Action → List Nat
  | [] => []
  | .linked l idx :: rest => if l = me then idx :: proxyTags me rest else proxyTags me rest
  | _ :: rest => proxyTags me rest

/-- The public call names only links among the first `n`. -/
def Op.bound {T : Type} (n : Nat) : Op T → Bool
  | .add a => a.bound n
  | .addAction me _ => decide (me < n)
  | _ => true

/-- A history whose first action is permanent, with two of three actions applied. -/
def examplePermanent : World Nat :=
  { list := { actions := [.leaf 1 false, .leaf 2 true, .leaf 3 true], position := 2 },
    links := [],
    trace := [] }

/-- Two links bound to one history; link 0 holds two values, link 1 none. -/
def twoLinks : World Nat :=
  { list := { actions := [.linked 0 0, .linked 0 1], position := 2 },
    links := [{ data := [10, 20], position := 2 }, { data := [], position := 0 }],
    trace := [.redo (.linked 0 0), .redo (.linked 0 1)] }

/-! ## Basic facts -/

theorem popBackN_eq_take {α : Type} (n : Nat) (xs : List α) :
    popBackN n xs = xs.take (xs.length - n) := by
  induction n generalizing xs with
  | zero => simp [popBackN]
  | succ n ih =>
    rw [popBackN, ih, List.dropLast_eq_take, List.take_take, List.length_take]
    congr 1
    omega

theorem truncateFrom_eq_take {α : Type} (p : Nat) (xs : List α) :
    truncateFrom p xs = xs.take p := by
  rw [truncateFrom, popBackN_eq_take]
  by_cases h : p ≤ xs.length
  · congr 1; omega
  · have h1 : xs.length - (xs.length - p) = xs.length := by omega
    rw [h1, List.take_length, List.take_of_length_le (by omega)]

theorem syncLoop_isSome (actions : List Action) (me : Nat) :
    ∀ (i pos : Nat), i ≤ actions.length → ∃ p, syncLoop actions me i pos = some p := by
  intro i
  induction i with
  | zero => intro pos _; exact ⟨pos, rfl⟩
  | succ i ih =>
    intro pos h
    have hi : i < actions.length := h
    rw [syncLoop, List.get?_eq_get hi]
    cases hget : actions.get ⟨i, hi⟩ with
    | leaf x u => exact ih pos (by omega)
    | bundled cs => exact ih pos (by omega)
    | linked l idx =>
      simp only
      split
      · exact ih _ (by omega)
      · exact ih _ (by omega)

/-- The scan started at `i` reads only the actions below `i`. -/
theorem syncLoop_take (actions : List Action) (me : Nat) :
    ∀ (i pos : Nat), syncLoop (actions.take i) me i pos = syncLoop actions me i pos := by
  have key : ∀ (i n pos : Nat), i ≤ n →
      syncLoop (actions.take n) me i pos = syncLoop actions me i pos := by
    intro i
    induction i with
    | zero => intro n pos _; rfl
    | succ i ih =>
      intro n pos h
      have hget : (actions.take n).get? i = actions.get? i := by
        simp only [List.get?_eq_getElem?, List.getElem?_take]
        rw [if_pos (by omega)]
      rw [syncLoop, syncLoop, hget]
      cases actions.get? i with
      | none => rfl
      | some a =>
        cases a with
        | leaf x u => exact ih n pos (by omega)
        | bundled cs => exact ih n pos (by omega)
        | linked l idx =>
          simp only
          split
          · exact ih n _ (by omega)
          · exact ih n _ (by omega)
  intro i pos
  exact key i i pos (le_refl i)

namespace World

variable {T : Type}

theorem sync_spec (me : Nat) (w : World T) (hme : me < w.links.length)
    (hpos : w.list.position ≤ w.list.actions.length) :
    ∃ w', w.sync me = some w' ∧ w'.list = w.list ∧ w'.trace = w.trace ∧
      w'.links.length = w.links.length := by
  obtain ⟨p, hp⟩ := syncLoop_isSome w.list.actions me w.list.position
    (w.links.get ⟨me, hme⟩).position hpos
  refine ⟨w.setLink me { w.links.get ⟨me, hme⟩ with position := p }, ?_, rfl, rfl, ?_⟩
  · simp only [sync, List.get?_eq_get hme, hp]
  · simp [setLink]

theorem linkClearFuture_spec (me : Nat) (w : World T) (hme : me < w.links.length) :
    ∃ w', w.linkClearFuture me = some w' ∧ w'.list = w.list ∧ w'.trace = w.trace ∧
      w'.links.length = w.links.length := by
  refine ⟨w.setLink me (w.links.get ⟨me, hme⟩).clearFuture, ?_, rfl, rfl, ?_⟩
  · simp only [linkClearFuture, List.get?_eq_get hme]
  · simp [setLink]

theorem linkedRedo_spec (me index : Nat) (w : World T) (hme : me < w.links.length) :
    ∃ w', w.linkedRedo me index = some w' ∧ w'.list = w.list ∧ w'.trace = w.trace ∧
      w'.links.length = w.links.length := by
  refine ⟨w.setLink me { w.links.get ⟨me, hme⟩ with position := (index + 1) % sizeModulus },
    ?_, rfl, rfl, ?_⟩
  · simp only [linkedRedo, List.get?_eq_get hme]
  · simp [setLink]

theorem runListeners_spec (ids : List Nat) :
    ∀ (w : World T), (∀ me ∈ ids, me < w.links.length) →
      w.list.position ≤ w.list.actions.length →
      ∃ w', runListeners ids w = some w' ∧ w'.list = w.list ∧ w'.trace = w.trace ∧
        w'.links.length = w.links.length := by
  induction ids with
  | nil => intro w _ _; exact ⟨w, rfl, rfl, rfl, rfl⟩
  | cons me rest ih =>
    intro w hids hpos
    obtain ⟨w1, h1, hl1, ht1, hn1⟩ :=
      sync_spec me w (hids me (List.mem_cons_self me rest)) hpos
    obtain ⟨w2, h2, hl2, ht2, hn2⟩ :=
      linkClearFuture_spec me w1 (by rw [hn1]; exact hids me (List.mem_cons_self me rest))
    obtain ⟨w3, h3, hl3, ht3, hn3⟩ := ih w2
      (by
        intro m hm
        rw [hn2, hn1]
        exact hids m (List.mem_cons_of_mem me hm))
      (by rw [hl2, hl1]; exact hpos)
    refine ⟨w3, ?_, ?_, ?_, ?_⟩
    · simp only [runListeners, h1, h2, h3]
    · rw [hl3, hl2, hl1]
    · rw [ht3, ht2, ht1]
    · rw [hn3, hn2, hn1]

theorem clearFuture_spec (w : World T) (hpos : w.list.position ≤ w.list.actions.length) :
    ∃ w', w.clearFuture = some w' ∧
      w'.list.actions = w.list.actions.take w.list.position ∧
      w'.list.position = w.list.position ∧ w'.trace = w.trace ∧
      w'.links.length = w.links.length := by
  obtain ⟨w1, h1, hl1, ht1, hn1⟩ := runListeners_spec (List.range w.links.length)
    { w with list := { w.list with actions := truncateFrom w.list.position w.list.actions } }
    (by intro m hm; exact List.mem_range.mp hm)
    (by
      show w.list.position ≤ (truncateFrom w.list.position w.list.actions).length
      rw [truncateFrom_eq_take, List.length_take]
      omega)
  refine ⟨w1, h1, ?_, ?_, ht1, hn1⟩
  · rw [hl1]
    exact truncateFrom_eq_take _ _
  · rw [hl1]

end World

mutual
theorem Action.redo_spec {T : Type} : ∀ (a : Action) (w : World T),
    a.bound w.links.length = true →
    ∃ w', a.redo w = some w' ∧ w'.list = w.list ∧ w'.links.length = w.links.length ∧
      w'.trace = w.trace ++ a.redoCalls
  | .leaf x u, w, _ => ⟨w.log (.redo (.leaf x u)), rfl, rfl, rfl, rfl⟩
  | .linked l i, w, h => by
    have hl : l < w.links.length := by simpa [Action.bound] using h
    obtain ⟨w1, h1, hl1, ht1, hn1⟩ :=
      World.linkedRedo_spec l i (w.log (.redo (.linked l i))) hl
    exact ⟨w1, h1, hl1, hn1, ht1⟩
  | .bundled cs, w, h => by
    obtain ⟨w1, h1, hl1, hn1, ht1⟩ :=
      Action.redoAll_spec cs (w.log (.redo (.bundled cs))) (by simpa [Action.bound] using h)
    refine ⟨w1, h1, hl1, hn1, ?_⟩
    rw [ht1]
    simp [World.log, Action.redoCalls]
theorem Action.redoAll_spec {T : Type} : ∀ (cs : List Action) (w : World T),
    Action.boundAll w.links.length cs = true →
    ∃ w', Action.redoAll cs w = some w' ∧ w'.list = w.list ∧
      w'.links.length = w.links.length ∧ w'.trace = w.trace ++ Action.redoCallsAll cs
  | [], w, _ => ⟨w, rfl, rfl, rfl, by simp [Action.redoCallsAll]⟩
  | c :: cs, w, h => by
    have hc : Action.bound w.links.length c = true ∧ Action.boundAll w.links.length cs = true := by
      simpa [Action.boundAll] using h
    obtain ⟨w1, h1, hl1, hn1, ht1⟩ := Action.redo_spec c w hc.1
    obtain ⟨w2, h2, hl2, hn2, ht2⟩ := Action.redoAll_spec cs w1 (by rw [hn1]; exact hc.2)
    refine ⟨w2, ?_, ?_, ?_, ?_⟩
    · simp only [Action.redoAll, h1, h2]
    · rw [hl2, hl1]
    · rw [hn2, hn1]
    · rw [ht2, ht1]
      simp [Action.redoCallsAll]
end

mutual
theorem Action.undo_spec {T : Type} : ∀ (a : Action) (w : World T),
    a.bound w.links.length = true → w.list.position ≤ w.list.actions.length →
    ∃ w', a.undo w = some w' ∧ w'.list = w.list ∧ w'.links.length = w.links.length ∧
      w'.trace = w.trace ++ a.undoCalls
  | .leaf x u, w, _, _ => ⟨w.log (.undo (.leaf x u)), rfl, rfl, rfl, rfl⟩
  | .linked l i, w, h, hpos => by
    have hl : l < w.links.length := by simpa [Action.bound] using h
    obtain ⟨w1, h1, hl1, ht1, hn1⟩ :=
      World.sync_spec l (w.log (.undo (.linked l i))) hl hpos
    exact ⟨w1, h1, hl1, hn1, ht1⟩
  | .bundled cs, w, h, hpos => by
    obtain ⟨w1, h1, hl1, hn1, ht1⟩ :=
      Action.undoAll_spec cs (w.log (.undo (.bundled cs))) (by simpa [Action.bound] using h) hpos
    refine ⟨w1, h1, hl1, hn1, ?_⟩
    rw [ht1]
    simp [World.log, Action.undoCalls]
theorem Action.undoAll_spec {T : Type} : ∀ (cs : List Action) (w : World T),
    Action.boundAll w.links.length cs = true → w.list.position ≤ w.list.actions.length →
    ∃ w', Action.undoAll cs w = some w' ∧ w'.list = w.list ∧
      w'.links.length = w.links.length ∧ w'.trace = w.trace ++ Action.undoCallsAll cs
  | [], w, _, _ => ⟨w, rfl, rfl, rfl, by simp [Action.undoCallsAll]⟩
  | c :: cs, w, h, hpos => by
    have hc : Action.bound w.links.length c = true ∧ Action.boundAll w.links.length cs = true := by
      simpa [Action.boundAll] using h
    obtain ⟨w1, h1, hl1, hn1, ht1⟩ := Action.undo_spec c w hc.1 hpos
    obtain ⟨w2, h2, hl2, hn2, ht2⟩ :=
      Action.undoAll_spec cs w1 (by rw [hn1]; exact hc.2) (by rw [hl1]; exact hpos)
    refine ⟨w2, ?_, ?_, ?_, ?_⟩
    · simp only [Action.undoAll, h1, h2]
    · rw [hl2, hl1]
    · rw [hn2, hn1]
    · rw [ht2, ht1]
      simp [Action.undoCallsAll]
end

theorem Action.boundAll_mem {n : Nat} : ∀ {cs : List Action} {a : Action},
    Action.boundAll n cs = true → a ∈ cs → Action.bound n a = true
  | [], _, _, h => by cases h
  | c :: cs, a, hb, h => by
    have hc : Action.bound n c = true ∧ Action.boundAll n cs = true := by
      simpa [Action.boundAll] using hb
    rcases List.mem_cons.mp h with h1 | h1
    · rw [h1]; exact hc.1
    · exact Action.boundAll_mem hc.2 h1

namespace World

variable {T : Type}

theorem fresh_list (n : Nat) : (fresh n : World T).list = { actions := [], position := 0 } := by
  induction n with
  | zero => rfl
  | succ n ih => simpa [fresh, newLink] using ih

theorem fresh_links_length (n : Nat) : (fresh n : World T).links.length = n := by
  induction n with
  | zero => rfl
  | succ n ih => simp [fresh, newLink, ih]

theorem history_redo_spec (w : World T) (a : Action)
    (hget : w.list.actions.get? w.list.position = some a)
    (ha : a.bound w.links.length = true) :
    ∃ w', w.redo = some w' ∧
      a.redo { w with list := { w.list with position := w.list.position + 1 } } = some w' ∧
      w'.list.position = w.list.position + 1 ∧ w'.list.actions = w.list.actions ∧
      w'.links.length = w.links.length ∧ w'.trace = w.trace ++ a.redoCalls := by
  have hlt : w.list.position < w.list.actions.length := by
    by_contra hge
    rw [List.get?_eq_none.mpr (by omega)] at hget
    cases hget
  obtain ⟨w1, h1, hl1, hn1, ht1⟩ :=
    Action.redo_spec a { w with list := { w.list with position := w.list.position + 1 } } ha
  refine ⟨w1, ?_, h1, ?_, ?_, hn1, ht1⟩
  · simp only [redo, ActionList.canRedo, hlt, decide_True, if_true, Nat.add_sub_cancel, hget, h1]
  · rw [hl1]
  · rw [hl1]

theorem redo_noop (w : World T) (h : w.list.canRedo = false) : w.redo = some w := by
  simp [redo, h]

theorem add_spec (w : World T) (a : Action)
    (hpos : w.list.position ≤ w.list.actions.length)
    (ha : a.bound w.links.length = true) :
    ∃ w', w.add a = some w' ∧
      w'.list.actions = w.list.actions.take w.list.position ++ [a] ∧
      w'.list.position = w.list.position + 1 ∧
      w'.links.length = w.links.length ∧
      w'.trace = w.trace ++ a.redoCalls := by
  obtain ⟨w1, h1, ha1, hp1, ht1, hn1⟩ := clearFuture_spec w hpos
  have hlen : w1.list.actions.length = w1.list.position := by
    rw [ha1, hp1, List.length_take]
    omega
  obtain ⟨w2, h2, _, hp2, ha2, hn2, ht2⟩ :=
    history_redo_spec { w1 with list := { w1.list with actions := w1.list.actions ++ [a] } } a
      (by
        show (w1.list.actions ++ [a]).get? w1.list.position = some a
        rw [← hlen]
        simp)
      (by
        show a.bound w1.links.length = true
        rw [hn1]
        exact ha)
  refine ⟨w2, ?_, ?_, ?_, ?_, ?_⟩
  · simp only [add, h1, h2]
  · rw [ha2]
    show w1.list.actions ++ [a] = _
    rw [ha1]
  · rw [hp2]
    show w1.list.position + 1 = _
    rw [hp1]
  · rw [hn2]
    exact hn1
  · rw [ht2]
    show w1.trace ++ a.redoCalls = _
    rw [ht1]

theorem add_position_eq_size (w w' : World T) (a : Action)
    (hpos : w.list.position ≤ w.list.actions.length)
    (h : w'.list.actions = w.list.actions.take w.list.position ++ [a])
    (hp : w'.list.position = w.list.position + 1) :
    w'.list.actions.length = w.list.position + 1 ∧
      w'.list.position = w'.list.actions.length := by
  have hlen : w'.list.actions.length = w.list.position + 1 := by
    rw [h, List.length_append, List.length_take]
    simp
    omega
  exact ⟨hlen, by rw [hp, hlen]⟩

theorem run_adds_spec : ∀ (acts : List Action) (w : World T),
    w.list.position = w.list.actions.length →
    Action.boundAll w.links.length acts = true →
    ∃ w', run (acts.map Op.add) w = some w' ∧ w'.list.position = w'.list.actions.length
  | [], w, h, _ => ⟨w, rfl, h⟩
  | a :: acts, w, h, hb => by
    have hc : Action.bound w.links.length a = true ∧
        Action.boundAll w.links.length acts = true := by
      simpa [Action.boundAll] using hb
    obtain ⟨w1, h1, ha1, hp1, hn1, _⟩ := add_spec w a (le_of_eq h) hc.1
    obtain ⟨w2, h2, hp2⟩ := run_adds_spec acts w1
      (add_position_eq_size w w1 a (le_of_eq h) ha1 hp1).2 (by rw [hn1]; exact hc.2)
    exact ⟨w2, by simp only [List.map, run, step, h1, h2], hp2⟩

theorem canUndo_total (w : World T) (hpos : w.list.position ≤ w.list.actions.length) :
    w.list.canUndo = some false ∨ w.list.canUndo = some true := by
  unfold ActionList.canUndo
  by_cases h0 : w.list.position > 0
  · have hlt : w.list.position - 1 < w.list.actions.length := by omega
    rw [if_pos h0, List.get?_eq_get hlt]
    simp only
    cases hc : (w.list.actions.get ⟨w.list.position - 1, hlt⟩).canUndo
    · exact Or.inl rfl
    · exact Or.inr rfl
  · rw [if_neg h0]
    exact Or.inl rfl

theorem canUndo_true (w : World T) (h : w.list.canUndo = some true) :
    0 < w.list.position ∧
      ∃ a, w.list.actions.get? (w.list.position - 1) = some a ∧ a.canUndo = true := by
  unfold ActionList.canUndo at h
  by_cases h0 : w.list.position > 0
  · rw [if_pos h0] at h
    refine ⟨h0, ?_⟩
    cases hg : w.list.actions.get? (w.list.position - 1) with
    | none => rw [hg] at h; cases h
    | some a =>
      rw [hg] at h
      exact ⟨a, rfl, by simpa using h⟩
  · rw [if_neg h0] at h
    cases h

theorem history_undo_spec (w : World T) (h : w.list.canUndo = some true)
    (hpos : w.list.position ≤ w.list.actions.length)
    (hb : Action.boundAll w.links.length w.list.actions = true) :
    ∃ a w', w.list.actions.get? (w.list.position - 1) = some a ∧
      w.undo = some w' ∧
      a.undo { w with list := { w.list with position := w.list.position - 1 } } = some w' ∧
      w'.list.position + 1 = w.list.position ∧ w'.list.actions = w.list.actions ∧
      w'.links.length = w.links.length ∧ w'.trace = w.trace ++ a.undoCalls := by
  obtain ⟨h0, a, hget, _⟩ := canUndo_true w h
  have hab : a.bound w.links.length = true :=
    Action.boundAll_mem hb (List.get?_mem hget)
  obtain ⟨w1, h1, hl1, hn1, ht1⟩ :=
    Action.undo_spec a { w with list := { w.list with position := w.list.position - 1 } } hab
      (by show w.list.position - 1 ≤ w.list.actions.length; omega)
  refine ⟨a, w1, hget, ?_, h1, ?_, ?_, hn1, ht1⟩
  · simp only [undo, h, hget, h1]
  · rw [hl1]
    show w.list.position - 1 + 1 = _
    omega
  · rw [hl1]

theorem undo_noop (w : World T) (h : w.list.canUndo = some false) : w.undo = some w := by
  simp only [undo, h]

theorem linked_undo_scan (w w' : World T) (l idx : Nat)
    (h : (Action.linked l idx).undo w = some w') :
    ∃ k p, w.links.get? l = some k ∧
      syncLoop (w.list.actions.take w.list.position) l w.list.position k.position = some p ∧
      w'.links = w.links.set l { k with position := p } := by
  simp only [Action.undo, sync, log] at h
  cases hk : w.links.get? l with
  | none => rw [hk] at h; cases h
  | some k =>
    rw [hk] at h
    simp only at h
    cases hp : syncLoop w.list.actions l w.list.position k.position with
    | none => rw [hp] at h; cases h
    | some p =>
      rw [hp] at h
      simp only [Option.some.injEq] at h
      refine ⟨k, p, rfl, ?_, ?_⟩
      · rw [syncLoop_take]; exact hp
      · rw [← h]; rfl

end World

/-! ## The running examples, one call at a time -/

namespace World

theorem run_step {T : Type} (op : Op T) (ops : List (Op T)) (w w1 w2 : World T)
    (h : w.step op = some w1) (hrest : run ops w1 = some w2) :
    run (op :: ops) w = some w2 := by
  simp only [run, h, hrest]

theorem run_twoValues :
    run [.addAction 0 10, .addAction 0 20] (fresh 1) = some twoValues :=
  run_step _ _ _ oneValue _ rfl (run_step _ _ _ twoValues _ rfl rfl)

theorem run_oneCommit : run [.add (.leaf 1 true)] (empty : World Nat) = some oneCommit :=
  run_step _ _ _ oneCommit _ rfl rfl

end World

/-! ## Queries, composites, traversals and the resync scan -/

theorem Action.canUndoAll_eq_true_iff : ∀ (cs : List Action),
    Action.canUndoAll cs = true ↔ ∀ c ∈ cs, Action.canUndo c = true
  | [] => by simp [Action.canUndoAll]
  | c :: cs => by
    have ih := Action.canUndoAll_eq_true_iff cs
    cases hc : Action.canUndo c with
    | false => simp [Action.canUndoAll, hc]
    | true => simp [Action.canUndoAll, hc, ih]

theorem Action.canUndoAll_append (cs : List Action) (c : Action) :
    Action.canUndoAll (cs ++ [c]) = (Action.canUndoAll cs && Action.canUndo c) := by
  have h1 := Action.canUndoAll_eq_true_iff (cs ++ [c])
  have h2 := Action.canUndoAll_eq_true_iff cs
  cases ha : Action.canUndoAll (cs ++ [c]) with
  | true =>
    have hall := h1.mp ha
    have hcs : Action.canUndoAll cs = true :=
      h2.mpr (fun x hx => hall x (List.mem_append_left _ hx))
    have hc : Action.canUndo c = true := hall c (by simp)
    rw [hcs, hc]; rfl
  | false =>
    cases hcs : Action.canUndoAll cs with
    | false => rfl
    | true =>
      cases hc : Action.canUndo c with
      | false => rfl
      | true =>
        have : Action.canUndoAll (cs ++ [c]) = true := by
          apply h1.mpr
          intro x hx
          rcases List.mem_append.mp hx with hx | hx
          · exact h2.mp hcs x hx
          · have hxc : x = c := by simpa using hx
            rw [hxc]; exact hc
        rw [ha] at this
        cases this

theorem ActionList.canUndo_eq_true_iff (l : ActionList) :
    l.canUndo = some true ↔
      0 < l.position ∧ ∃ a, l.actions.get? (l.position - 1) = some a ∧ a.canUndo = true := by
  unfold ActionList.canUndo
  by_cases h0 : l.position > 0
  · rw [if_pos h0]
    cases hg : l.actions.get? (l.position - 1) with
    | none => simp
    | some a => simp [h0]
  · rw [if_neg h0]
    simp [h0]

theorem ActionList.canUndo_isSome (l : ActionList)
    (hpos : l.position ≤ l.actions.length) :
    l.canUndo = some true ∨ l.canUndo = some false := by
  unfold ActionList.canUndo
  by_cases h0 : l.position > 0
  · have hlt : l.position - 1 < l.actions.length := by omega
    rw [if_pos h0, List.get?_eq_get hlt]
    simp only
    cases hc : (l.actions.get ⟨l.position - 1, hlt⟩).canUndo
    · exact Or.inr rfl
    · exact Or.inl rfl
  · rw [if_neg h0]
    exact Or.inr rfl

theorem ActionListLink.visitFrom_eq {T : Type} (data : List T) :
    ∀ (count i : Nat), i + count ≤ data.length →
      ActionListLink.visitFrom data count i = some ((data.drop i).take count) := by
  intro count
  induction count with
  | zero => intro i _; simp [ActionListLink.visitFrom]
  | succ count ih =>
    intro i h
    have hi : i < data.length := by omega
    rw [ActionListLink.visitFrom, List.get?_eq_get hi]
    simp only
    rw [ih (i + 1) (by omega), List.drop_eq_getElem_cons hi]
    rfl

theorem firstProxyTag_append (me : Nat) (a : Action) : ∀ (xs : List Action),
    firstProxyTag me (xs ++ [a]) =
      match firstProxyTag me xs with
      | some idx => some idx
      | none => firstProxyTag me [a]
  | [] => by
    simp only [List.nil_append]
    rfl
  | x :: xs => by
    have ih := firstProxyTag_append me a xs
    cases x with
    | leaf v u => simpa [firstProxyTag] using ih
    | bundled cs => simpa [firstProxyTag] using ih
    | linked l idx =>
      by_cases hl : l = me
      · simp [firstProxyTag, hl]
      · simpa [firstProxyTag, hl] using ih

/-- The scan ends on the proxy with the lowest index: the last assignment wins. -/
theorem syncLoop_eq (actions : List Action) (me : Nat) :
    ∀ (i pos : Nat), i ≤ actions.length →
      syncLoop actions me i pos =
        some (match firstProxyTag me (actions.take i) with
          | some idx => (idx + 1) % sizeModulus
          | none => pos) := by
  intro i
  induction i with
  | zero => intro pos _; simp [syncLoop, firstProxyTag]
  | succ i ih =>
    intro pos h
    have hi : i < actions.length := h
    have htake : actions.take (i + 1) = actions.take i ++ [actions.get ⟨i, hi⟩] := by
      rw [List.take_succ, List.getElem?_eq_getElem hi]
      rfl
    rw [syncLoop, List.get?_eq_get hi, htake, firstProxyTag_append]
    cases hget : actions.get ⟨i, hi⟩ with
    | leaf x u =>
      simp only
      rw [ih pos (by omega)]
      cases firstProxyTag me (actions.take i) <;> simp [firstProxyTag]
    | bundled cs =>
      simp only
      rw [ih pos (by omega)]
      cases firstProxyTag me (actions.take i) <;> simp [firstProxyTag]
    | linked l idx =>
      simp only
      by_cases hl : l = me
      · rw [if_pos hl, ih _ (by omega)]
        cases firstProxyTag me (actions.take i) <;> simp [firstProxyTag, hl]
      · rw [if_neg hl, ih _ (by omega)]
        cases firstProxyTag me (actions.take i) <;> simp [firstProxyTag, hl]

/-! ## Calls of a composite -/

theorem Action.redoCallsAll_eq_flatten : ∀ (cs : List Action),
    Action.redoCallsAll cs = (cs.map Action.redoCalls).flatten
  | [] => rfl
  | c :: cs => by
    simp [Action.redoCallsAll, Action.redoCallsAll_eq_flatten cs]

theorem Action.undoCallsAll_eq_flatten : ∀ (cs : List Action),
    Action.undoCallsAll cs = (cs.map Action.undoCalls).flatten
  | [] => rfl
  | c :: cs => by
    simp [Action.undoCallsAll, Action.undoCallsAll_eq_flatten cs]

theorem Action.calls_head (c : Action) :
    c.redoCalls.head? = some (.redo c) ∧ c.undoCalls.head? = some (.undo c) := by
  cases c <;> exact ⟨rfl, rfl⟩

theorem Action.calls_of_not_bundled (c : Action) (h : c.isBundled = false) :
    c.redoCalls = [.redo c] ∧ c.undoCalls = [.undo c] := by
  cases c with
  | leaf x u => exact ⟨rfl, rfl⟩
  | bundled cs => cases h
  | linked l i => exact ⟨rfl, rfl⟩

theorem Action.flatten_calls_of_not_bundled : ∀ (cs : List Action),
    (∀ c ∈ cs, Action.isBundled c = false) →
    (cs.map Action.redoCalls).flatten = cs.map Event.redo ∧
      (cs.map Action.undoCalls).flatten = cs.map Event.undo
  | [], _ => ⟨rfl, rfl⟩
  | c :: cs, h => by
    obtain ⟨hr, hu⟩ := Action.calls_of_not_bundled c (h c (List.mem_cons_self c cs))
    obtain ⟨ihr, ihu⟩ := Action.flatten_calls_of_not_bundled cs
      (fun x hx => h x (List.mem_cons_of_mem c hx))
    constructor
    · simp [hr, ihr]
    · simp [hu, ihu]

/-! ## Reachable states -/

theorem Action.boundAll_iff (n : Nat) : ∀ (cs : List Action),
    Action.boundAll n cs = true ↔ ∀ a ∈ cs, Action.bound n a = true
  | [] => by simp [Action.boundAll]
  | c :: cs => by
    simp [Action.boundAll, Action.boundAll_iff n cs]

theorem Action.boundAll_take (n p : Nat) (cs : List Action)
    (h : Action.boundAll n cs = true) : Action.boundAll n (cs.take p) = true :=
  (Action.boundAll_iff n _).mpr
    (fun a ha => (Action.boundAll_iff n cs).mp h a (List.mem_of_mem_take ha))

theorem Action.boundAll_snoc (n : Nat) (cs : List Action) (a : Action)
    (h : Action.boundAll n cs = true) (ha : Action.bound n a = true) :
    Action.boundAll n (cs ++ [a]) = true := by
  apply (Action.boundAll_iff n _).mpr
  intro x hx
  rcases List.mem_append.mp hx with hx | hx
  · exact (Action.boundAll_iff n cs).mp h x hx
  · have hxa : x = a := by simpa using hx
    rw [hxa]; exact ha

namespace World

variable {T : Type}

theorem addAction_spec (w : World T) (me : Nat) (v : T)
    (hme : me < w.links.length)
    (hpos : w.list.position ≤ w.list.actions.length) :
    ∃ w' idx, w.addAction me v = some w' ∧
      w'.list.actions = w.list.actions.take w.list.position ++ [.linked me idx] ∧
      w'.list.position = w.list.position + 1 ∧
      w'.links.length = w.links.length := by
  obtain ⟨w1, h1, hl1, _, hn1⟩ := linkClearFuture_spec me w hme
  have hme1 : me < w1.links.length := by rw [hn1]; exact hme
  have hk1 : w1.links.get? me = some (w1.links.get ⟨me, hme1⟩) := List.get?_eq_get hme1
  obtain ⟨w2, h2, ha2, hp2, hn2, _⟩ :=
    add_spec w1 (.linked me (w1.links.get ⟨me, hme1⟩).data.length)
      (by rw [hl1]; exact hpos) (by simpa [Action.bound] using hme1)
  have hme2 : me < w2.links.length := by rw [hn2]; exact hme1
  have hk2 : w2.links.get? me = some (w2.links.get ⟨me, hme2⟩) := List.get?_eq_get hme2
  refine ⟨w2.setLink me
      { data := (w2.links.get ⟨me, hme2⟩).data ++ [v],
        position := ((w2.links.get ⟨me, hme2⟩).data ++ [v]).length },
    (w1.links.get ⟨me, hme1⟩).data.length, ?_, ?_, ?_, ?_⟩
  · simp only [addAction, h1, hk1, h2, hk2]
  · show w2.list.actions = _
    rw [ha2, hl1]
  · show w2.list.position = _
    rw [hp2, hl1]
  · show (w2.links.set me _).length = _
    rw [List.length_set, hn2, hn1]

theorem step_spec (n : Nat) (w : World T) (op : Op T)
    (hn : w.links.length = n)
    (hpos : w.list.position ≤ w.list.actions.length)
    (hb : Action.boundAll n w.list.actions = true)
    (hop : op.bound n = true) :
    ∃ w', w.step op = some w' ∧ w'.links.length = n ∧
      w'.list.position ≤ w'.list.actions.length ∧
      Action.boundAll n w'.list.actions = true := by
  cases op with
  | add a =>
    obtain ⟨w1, h1, ha1, hp1, hn1, _⟩ :=
      add_spec w a hpos (by rw [hn]; exact hop)
    refine ⟨w1, h1, by rw [hn1, hn], ?_, ?_⟩
    · exact le_of_eq (add_position_eq_size w w1 a hpos ha1 hp1).2
    · rw [ha1]
      exact Action.boundAll_snoc n _ a (Action.boundAll_take n _ _ hb) hop
  | clearFuture =>
    obtain ⟨w1, h1, ha1, hp1, _, hn1⟩ := clearFuture_spec w hpos
    refine ⟨w1, h1, by rw [hn1, hn], ?_, ?_⟩
    · rw [ha1, hp1, List.length_take]
      omega
    · rw [ha1]
      exact Action.boundAll_take n _ _ hb
  | undo =>
    rcases canUndo_total w hpos with hf | ht
    · exact ⟨w, undo_noop w hf, hn, hpos, hb⟩
    · obtain ⟨a, w1, _, hu, _, hp1, ha1, hn1, _⟩ :=
        history_undo_spec w ht hpos (by rw [hn]; exact hb)
      refine ⟨w1, hu, by rw [hn1, hn], ?_, by rw [ha1]; exact hb⟩
      rw [ha1]
      omega
  | redo =>
    cases hc : w.list.canRedo with
    | false => exact ⟨w, redo_noop w hc, hn, hpos, hb⟩
    | true =>
      have hlt : w.list.position < w.list.actions.length := by
        simpa [ActionList.canRedo] using hc
      have hget : w.list.actions.get? w.list.position
          = some (w.list.actions.get ⟨w.list.position, hlt⟩) := List.get?_eq_get hlt
      obtain ⟨w1, hr, _, hp1, ha1, hn1, _⟩ := history_redo_spec w _ hget
        (by rw [hn]; exact Action.boundAll_mem hb (List.get?_mem hget))
      refine ⟨w1, hr, by rw [hn1, hn], ?_, by rw [ha1]; exact hb⟩
      rw [ha1, hp1]
      omega
  | addAction me v =>
    have hme : me < w.links.length := by
      rw [hn]
      simpa [Op.bound] using hop
    obtain ⟨w1, idx, h1, ha1, hp1, hn1⟩ := addAction_spec w me v hme hpos
    refine ⟨w1, h1, by rw [hn1, hn], ?_, ?_⟩
    · rw [ha1, hp1, List.length_append, List.length_take]
      simp
      omega
    · rw [ha1]
      exact Action.boundAll_snoc n _ _ (Action.boundAll_take n _ _ hb)
        (by rw [← hn]; simpa [Action.bound] using hme)

theorem run_spec (n : Nat) : ∀ (ops : List (Op T)) (w : World T),
    w.links.length = n →
    w.list.position ≤ w.list.actions.length →
    Action.boundAll n w.list.actions = true →
    ops.all (Op.bound n) = true →
    ∃ w', run ops w = some w' ∧ w'.links.length = n ∧
      w'.list.position ≤ w'.list.actions.length ∧
      Action.boundAll n w'.list.actions = true
  | [], w, hn, hpos, hb, _ => ⟨w, rfl, hn, hpos, hb⟩
  | op :: ops, w, hn, hpos, hb, hops => by
    have hc : op.bound n = true ∧ ops.all (Op.bound n) = true := by
      simpa using hops
    obtain ⟨w1, h1, hn1, hp1, hb1⟩ := step_spec n w op hn hpos hb hc.1
    obtain ⟨w2, h2, hn2, hp2, hb2⟩ := run_spec n ops w1 hn1 hp1 hb1 hc.2
    exact ⟨w2, by simp only [run, h1, h2], hn2, hp2, hb2⟩

end World

/-! ## Repeated undo and redo -/

namespace World

variable {T : Type}

theorem run_undos : ∀ (N : Nat) (w : World T),
    w.list.position ≤ w.list.actions.length →
    Action.boundAll w.links.length w.list.actions = true →
    N ≤ w.list.position →
    (∀ i a, w.list.position - N ≤ i → i < w.list.position →
      w.list.actions.get? i = some a → a.canUndo = true) →
    ∃ w1, run (List.replicate N Op.undo) w = some w1 ∧
      w1.list.actions = w.list.actions ∧
      w1.list.position = w.list.position - N ∧
      w1.links.length = w.links.length ∧
      w1.trace = w.trace ++
        Action.undoCallsAll ((w.list.actions.take w.list.position).reverse.take N)
  | 0, w, _, _, _, _ => ⟨w, rfl, rfl, rfl, rfl, by simp [Action.undoCallsAll]⟩
  | N + 1, w, hpos, hb, hN, hu => by
    have hlt : w.list.position - 1 < w.list.actions.length := by omega
    have hget : w.list.actions.get? (w.list.position - 1)
        = some (w.list.actions.get ⟨w.list.position - 1, hlt⟩) := List.get?_eq_get hlt
    have hcan : w.list.canUndo = some true :=
      (ActionList.canUndo_eq_true_iff w.list).mpr
        ⟨by omega, _, hget, hu _ _ (by omega) (by omega) hget⟩
    obtain ⟨a, w1, hga, hun, _, hp1, ha1, hn1, ht1⟩ := history_undo_spec w hcan hpos hb
    have hp1' : w1.list.position = w.list.position - 1 := by omega
    obtain ⟨w2, h2, ha2, hp2, hn2, ht2⟩ := run_undos N w1
      (by rw [ha1]; omega)
      (by rw [hn1, ha1]; exact hb)
      (by omega)
      (by
        intro i x h1 h2 hx
        rw [ha1] at hx
        exact hu i x (by omega) (by omega) hx)
    refine ⟨w2, ?_, by rw [ha2, ha1], by rw [hp2]; omega, by rw [hn2, hn1], ?_⟩
    · simp only [List.replicate_succ, run, step, hun, h2]
    · have htake : w.list.actions.take w.list.position
          = w.list.actions.take (w.list.position - 1) ++ [a] := by
        have hsucc : w.list.position = w.list.position - 1 + 1 := by omega
        conv_lhs => rw [hsucc]
        rw [List.take_succ]
        simp only [List.get?_eq_getElem?] at hga
        rw [hga]
        rfl
      rw [ht2, ht1, ha1, hp1', htake]
      simp [Action.undoCallsAll]

theorem run_redos : ∀ (N : Nat) (w : World T),
    Action.boundAll w.links.length w.list.actions = true →
    w.list.position + N ≤ w.list.actions.length →
    ∃ w1, run (List.replicate N Op.redo) w = some w1 ∧
      w1.list.actions = w.list.actions ∧
      w1.list.position = w.list.position + N ∧
      w1.links.length = w.links.length ∧
      w1.trace = w.trace ++
        Action.redoCallsAll ((w.list.actions.drop w.list.position).take N)
  | 0, w, _, _ => ⟨w, rfl, rfl, rfl, rfl, by simp [Action.redoCallsAll]⟩
  | N + 1, w, hb, hN => by
    have hlt : w.list.position < w.list.actions.length := by omega
    have hget : w.list.actions.get? w.list.position
        = some (w.list.actions.get ⟨w.list.position, hlt⟩) := List.get?_eq_get hlt
    obtain ⟨w1, hr, _, hp1, ha1, hn1, ht1⟩ := history_redo_spec w _ hget
      (Action.boundAll_mem hb (List.get?_mem hget))
    obtain ⟨w2, h2, ha2, hp2, hn2, ht2⟩ := run_redos N w1
      (by rw [hn1, ha1]; exact hb)
      (by rw [ha1, hp1]; omega)
    refine ⟨w2, ?_, by rw [ha2, ha1], by rw [hp2, hp1]; omega, by rw [hn2, hn1], ?_⟩
    · simp only [List.replicate_succ, run, step, hr, h2]
    · rw [ht2, ht1, ha1, hp1, List.drop_eq_getElem_cons hlt]
      simp [Action.redoCallsAll]

end World

/-! ## The claims -/

variable {T : Type}

/-- C1: truncation law of `ActionList::add`.  In a history with `position ≤ size`,
`add a` returns; afterwards the actions are the first `position` old actions followed by
`a`, the size is the old position plus one, the position equals the size (so `canRedo` is
false), and the calls made are exactly those of one `a.redo()`.  Hence after any sequence
of commits from an empty history the position equals the size. -/
theorem add_truncation_law (w : World T) (a : Action) (n : Nat) (acts : List Action)
    (hpos : w.list.position ≤ w.list.actions.length)
    (ha : a.bound w.links.length = true)
    (hacts : Action.boundAll n acts = true) :
    (∃ w', w.add a = some w' ∧
      w'.list.actions = w.list.actions.take w.list.position ++ [a] ∧
      w'.list.actions.length = w.list.position + 1 ∧
      w'.list.position = w'.list.actions.length ∧
      w'.list.canRedo = false ∧
      w'.trace = w.trace ++ a.redoCalls) ∧
    (∃ w'', World.run (acts.map Op.add) (World.fresh n : World T) = some w'' ∧
      w''.list.position = w''.list.actions.length) := by
  constructor
  · obtain ⟨w1, h1, ha1, hp1, _, ht1⟩ := World.add_spec w a hpos ha
    obtain ⟨hlen, hps⟩ := World.add_position_eq_size w w1 a hpos ha1 hp1
    refine ⟨w1, h1, ha1, hlen, hps, ?_, ht1⟩
    simp [ActionList.canRedo, hps]
  · exact World.run_adds_spec acts (World.fresh n)
      (by rw [World.fresh_list]; rfl)
      (by rw [World.fresh_links_length]; exact hacts)

/-- Witness of C1: the last commit of `src/src/test.cpp`, after two undos. -/
theorem add_truncation_law_witness :
    exampleHistory.list.position ≤ exampleHistory.list.actions.length ∧
    (Action.leaf 4 true).bound exampleHistory.links.length = true ∧
    Action.boundAll 1 [.leaf 1 true, .linked 0 0] = true ∧
    (∃ w', exampleHistory.add (.leaf 4 true) = some w' ∧
      w'.list.actions = exampleHistory.list.actions.take exampleHistory.list.position
        ++ [.leaf 4 true] ∧
      w'.list.actions.length = exampleHistory.list.position + 1 ∧
      w'.list.position = w'.list.actions.length ∧
      w'.list.canRedo = false ∧
      w'.trace = exampleHistory.trace ++ (Action.leaf 4 true).redoCalls) ∧
    (∃ w'', World.run ([Action.leaf 1 true, .linked 0 0].map Op.add)
        (World.fresh 1 : World Nat) = some w'' ∧
      w''.list.position = w''.list.actions.length) :=
  ⟨by decide, by decide, by decide,
    add_truncation_law exampleHistory (.leaf 4 true) 1 [.leaf 1 true, .linked 0 0]
      (by decide) (by decide) (by decide)⟩

/-- C2: `ActionList::undo`.  In a history with `position ≤ size` whose proxies name bound
links, `canUndo` returns; if it is false `undo` changes nothing and makes no call;
otherwise the position drops by one, the actions are unchanged, and the calls made are
those of one `undo()` on the action at the old `position - 1`, run in the state whose
cursor has already moved: a proxy's resync reads only the actions below that index. -/
theorem undo_law (w : World T)
    (hpos : w.list.position ≤ w.list.actions.length)
    (hb : Action.boundAll w.links.length w.list.actions = true) :
    (w.list.canUndo = some false ∨ w.list.canUndo = some true) ∧
    (w.list.canUndo = some false → w.undo = some w) ∧
    (w.list.canUndo = some true →
      ∃ a w', w.list.actions.get? (w.list.position - 1) = some a ∧
        w.undo = some w' ∧
        a.undo { w with list := { w.list with position := w.list.position - 1 } } = some w' ∧
        w'.list.position + 1 = w.list.position ∧
        w'.list.actions = w.list.actions ∧
        w'.trace = w.trace ++ a.undoCalls ∧
        ∀ l idx, a = Action.linked l idx →
          ∃ k p, w.links.get? l = some k ∧
            syncLoop (w.list.actions.take (w.list.position - 1)) l (w.list.position - 1)
              k.position = some p ∧
            w'.links = w.links.set l { k with position := p }) := by
  refine ⟨World.canUndo_total w hpos, World.undo_noop w, ?_⟩
  intro h
  obtain ⟨a, w1, hget, hu, hau, hp1, ha1, _, ht1⟩ := World.history_undo_spec w h hpos hb
  refine ⟨a, w1, hget, hu, hau, hp1, ha1, ht1, ?_⟩
  intro l idx hl
  rw [hl] at hau
  obtain ⟨k, p, hk, hs, hlinks⟩ := World.linked_undo_scan _ w1 l idx hau
  exact ⟨k, p, hk, hs, hlinks⟩

/-- Witness of C2: undoing the second proxy of a link. -/
theorem undo_law_witness :
    exampleLinked.list.position ≤ exampleLinked.list.actions.length ∧
    Action.boundAll exampleLinked.links.length exampleLinked.list.actions = true ∧
    exampleLinked.list.canUndo = some true ∧
    (exampleLinked.list.canUndo = some true →
      ∃ a w', exampleLinked.list.actions.get? (exampleLinked.list.position - 1) = some a ∧
        exampleLinked.undo = some w' ∧
        a.undo { exampleLinked with
          list := { exampleLinked.list with position := exampleLinked.list.position - 1 } }
            = some w' ∧
        w'.list.position + 1 = exampleLinked.list.position ∧
        w'.list.actions = exampleLinked.list.actions ∧
        w'.trace = exampleLinked.trace ++ a.undoCalls ∧
        ∀ l idx, a = Action.linked l idx →
          ∃ k p, exampleLinked.links.get? l = some k ∧
            syncLoop (exampleLinked.list.actions.take (exampleLinked.list.position - 1)) l
              (exampleLinked.list.position - 1) k.position = some p ∧
            w'.links = exampleLinked.links.set l { k with position := p }) :=
  ⟨by decide, by decide, by decide, (undo_law exampleLinked (by decide) (by decide)).2.2⟩

/-- C3: `ActionList::redo`.  In every history (also one with `position ≤ size`) whose proxies name bound links, if `canRedo`
is false `redo` changes nothing and makes no call; otherwise the position grows by one,
the actions are unchanged, and the calls made are those of one `redo()` on the action at
the new `position - 1`, run in the state whose cursor has already moved. -/
theorem redo_law (w : World T)
    (hb : Action.boundAll w.links.length w.list.actions = true) :
    (w.list.canRedo = false → w.redo = some w) ∧
    (w.list.canRedo = true →
      ∃ a w', w.redo = some w' ∧
        w'.list.position = w.list.position + 1 ∧
        w'.list.actions = w.list.actions ∧
        w'.list.actions.get? (w'.list.position - 1) = some a ∧
        a.redo { w with list := { w.list with position := w.list.position + 1 } } = some w' ∧
        w'.trace = w.trace ++ a.redoCalls) := by
  refine ⟨World.redo_noop w, ?_⟩
  intro h
  have hlt : w.list.position < w.list.actions.length := by
    simpa [ActionList.canRedo] using h
  have hget : w.list.actions.get? w.list.position
      = some (w.list.actions.get ⟨w.list.position, hlt⟩) := List.get?_eq_get hlt
  obtain ⟨w1, hr, har, hp1, ha1, _, ht1⟩ := World.history_redo_spec w _ hget
    (Action.boundAll_mem hb (List.get?_mem hget))
  refine ⟨_, w1, hr, hp1, ha1, ?_, har, ht1⟩
  rw [hp1, ha1, Nat.add_sub_cancel]
  exact hget

/-- Witness of C3: redoing the undone second proxy of a link. -/
theorem redo_law_witness :
    Action.boundAll exampleUndone.links.length exampleUndone.list.actions = true ∧
    exampleUndone.list.canRedo = true ∧
    (exampleUndone.list.canRedo = true →
      ∃ a w', exampleUndone.redo = some w' ∧
        w'.list.position = exampleUndone.list.position + 1 ∧
        w'.list.actions = exampleUndone.list.actions ∧
        w'.list.actions.get? (w'.list.position - 1) = some a ∧
        a.redo { exampleUndone with
          list := { exampleUndone.list with position := exampleUndone.list.position + 1 } }
            = some w' ∧
        w'.trace = exampleUndone.trace ++ a.redoCalls) :=
  ⟨by decide, by decide, (redo_law exampleUndone (by decide)).2⟩

/-- C4: the resync law fails on plain commits.  After `addAction`, `addAction` on a fresh
link and one commit of a leaf, the nearest proxy of the link below the cursor is tagged 1,
so the law prescribes position 2; `sync`, run by the commit's future-cleared subscriber,
left the link at position 1. -/
theorem resync_law_broken_by_commit :
    ∃ w : World Nat,
      World.run [.addAction 0 10, .addAction 0 20, .add (.leaf 7 true)] (World.fresh 1)
        = some w ∧
      w.list.actions = [.linked 0 0, .linked 0 1, .leaf 7 true] ∧
      w.list.position = 3 ∧
      w.links.map ActionListLink.position = [1] ∧
      expectedPosition w.list.actions 0 w.list.position = 2 :=
  ⟨{ list := { actions := [.linked 0 0, .linked 0 1, .leaf 7 true], position := 3 },
     links := [{ data := [10], position := 1 }],
     trace := [.redo (.linked 0 0), .redo (.linked 0 1), .redo (.leaf 7 true)] },
    World.run_step _ _ _ oneValue _ rfl
      (World.run_step _ _ _ twoValues _ rfl (World.run_step _ _ _ _ _ rfl rfl)),
    rfl, rfl, rfl, rfl⟩

/-- C5: `sync` does not stop at the nearest proxy.  After two `addAction` calls on a fresh
link the history holds the proxies tagged 0 and 1 below its cursor; `sync` sets the link's
position to 1, one plus the tag of the proxy with the lowest index, where the first proxy
met scanning backward prescribes 2. -/
theorem sync_takes_lowest_proxy :
    ∃ w w' : World Nat,
      World.run [.addAction 0 10, .addAction 0 20] (World.fresh 1) = some w ∧
      w.list.actions = [.linked 0 0, .linked 0 1] ∧ w.list.position = 2 ∧
      w.sync 0 = some w' ∧
      w'.links.map ActionListLink.position = [1] ∧
      expectedPosition w.list.actions 0 w.list.position = 2 :=
  ⟨twoValues,
    { list := { actions := [.linked 0 0, .linked 0 1], position := 2 },
      links := [{ data := [10, 20], position := 1 }],
      trace := [.redo (.linked 0 0), .redo (.linked 0 1)] },
    World.run_twoValues, rfl, rfl, rfl, rfl, rfl⟩

/-- C6: `sync` does not reset to zero.  Bind a link to a history holding one commit, call
`addAction` twice and `undo` twice: no proxy of the link is left below the cursor, and the
link's position is 1, not 0. -/
theorem sync_keeps_position_without_proxy :
    ∃ w0 w : World Nat,
      World.run [.add (.leaf 1 true)] World.empty = some w0 ∧
      World.run [.addAction 0 42, .addAction 0 64, .undo, .undo] w0.newLink = some w ∧
      w.list.actions = [.leaf 1 true, .linked 0 0, .linked 0 1] ∧
      w.list.position = 1 ∧
      expectedPosition w.list.actions 0 w.list.position = 0 ∧
      w.links.map ActionListLink.position = [1] :=
  ⟨oneCommit,
    { list := { actions := [.leaf 1 true, .linked 0 0, .linked 0 1], position := 1 },
      links := [{ data := [42, 64], position := 1 }],
      trace := [.redo (.leaf 1 true), .redo (.linked 0 0), .redo (.linked 0 1),
        .undo (.linked 0 1), .undo (.linked 0 0)] },
    World.run_oneCommit,
    World.run_step _ _ _ testOne _ rfl
      (World.run_step _ _ _ testTwo _ rfl
        (World.run_step _ _ _ testUndone _ rfl (World.run_step _ _ _ _ _ rfl rfl))),
    rfl, rfl, rfl, rfl⟩

/-- C7: the third `addAction` on a fresh link loses a past value.  Before it the link
holds `[10, 20]` at position 2 and the history is at position 2 of 2; after it the link
holds `[10, 30]`, not `[10, 20, 30]`. -/
theorem addAction_third_call_drops_value :
    ∃ (w2 w3 : World Nat) (k2 k3 : ActionListLink Nat),
      World.run [.addAction 0 10, .addAction 0 20] (World.fresh 1) = some w2 ∧
      w2.links.get? 0 = some k2 ∧
      k2.data = [10, 20] ∧ k2.position ≤ k2.data.length ∧
      w2.list.position ≤ w2.list.actions.length ∧
      w2.addAction 0 30 = some w3 ∧
      w3.links.get? 0 = some k3 ∧
      k3.data = [10, 30] ∧
      k3.data ≠ k2.data.take k2.position ++ [30] ∧
      k3.position = k3.data.length :=
  ⟨twoValues, threeCalls, { data := [10, 20], position := 2 },
    { data := [10, 30], position := 2 },
    World.run_twoValues, rfl, rfl, by decide, by decide, rfl, rfl, rfl, by decide, rfl⟩

/-- C8: the tag of a proxy can differ from the index of its value.  Continuing
`src/src/test.cpp` (one commit, then `addAction` twice) with a third `addAction`, the last
action of the history is the link's proxy tagged 2 and the cursor is at the end, while the
value just added is stored at index 1. -/
theorem addAction_tag_differs_from_value_index :
    ∃ (w0 w : World Nat) (k : ActionListLink Nat),
      World.run [.add (.leaf 1 true)] World.empty = some w0 ∧
      World.run [.addAction 0 42, .addAction 0 64, .addAction 0 7] w0.newLink = some w ∧
      w.list.actions.getLast? = some (.linked 0 2) ∧
      w.list.position = w.list.actions.length ∧
      w.links.get? 0 = some k ∧
      k.data = [42, 7] ∧ k.data.get? (k.data.length - 1) = some 7 ∧
      k.data.length - 1 = 1 :=
  ⟨oneCommit,
    { list := { actions := [.leaf 1 true, .linked 0 0, .linked 0 1, .linked 0 2],
                position := 4 },
      links := [{ data := [42, 7], position := 2 }],
      trace := [.redo (.leaf 1 true), .redo (.linked 0 0), .redo (.linked 0 1),
        .redo (.linked 0 2)] },
    { data := [42, 7], position := 2 },
    World.run_oneCommit,
    World.run_step _ _ _ testOne _ rfl
      (World.run_step _ _ _ testTwo _ rfl (World.run_step _ _ _ _ _ rfl rfl)),
    rfl, rfl, rfl, rfl, rfl, rfl⟩

/-- C9: the link's cursor can leave its range.  After three `addAction` calls on a fresh
link, `undo` and `redo`, the link's position is 3 while it holds 2 values, and `visitPast`
indexes out of range. -/
theorem link_position_exceeds_size :
    ∃ (w : World Nat) (k : ActionListLink Nat),
      World.run [.addAction 0 10, .addAction 0 20, .addAction 0 30, .undo, .redo]
        (World.fresh 1) = some w ∧
      w.links.get? 0 = some k ∧
      k.position = 3 ∧ k.data.length = 2 ∧ ¬ k.position ≤ k.data.length ∧
      k.visitPast = none :=
  ⟨{ list := { actions := [.linked 0 0, .linked 0 1, .linked 0 2], position := 3 },
     links := [{ data := [10, 30], position := 3 }],
     trace := [.redo (.linked 0 0), .redo (.linked 0 1), .redo (.linked 0 2),
       .undo (.linked 0 2), .redo (.linked 0 2)] },
    { data := [10, 30], position := 3 },
    World.run_step _ _ _ oneValue _ rfl
      (World.run_step _ _ _ twoValues _ rfl
        (World.run_step _ _ _ threeCalls _ rfl
          (World.run_step _ _ _
            { list := { actions := [.linked 0 0, .linked 0 1, .linked 0 2], position := 2 },
              links := [{ data := [10, 30], position := 1 }],
              trace := [.redo (.linked 0 0), .redo (.linked 0 1), .redo (.linked 0 2),
                .undo (.linked 0 2)] }
            _ rfl (World.run_step _ _ _ _ _ rfl rfl)))),
    rfl, rfl, rfl, by decide, rfl⟩

/-- C10: after a truncation and its notification the values and the proxies disagree.
`addAction`, `undo` and a commit of a leaf remove the link's only proxy and keep its
value; `addAction` twice and `clearFuture` keep both proxies and remove a value. -/
theorem truncation_leaves_values_and_proxies_apart :
    (∃ w : World Nat,
      World.run [.addAction 0 10, .undo, .add (.leaf 7 true)] (World.fresh 1) = some w ∧
      w.list.actions = [.leaf 7 true] ∧
      w.list.actions.countP (Action.isProxyOf 0) = 0 ∧
      w.links.map ActionListLink.data = [[10]]) ∧
    (∃ w : World Nat,
      World.run [.addAction 0 10, .addAction 0 20, .clearFuture] (World.fresh 1) = some w ∧
      w.list.actions = [.linked 0 0, .linked 0 1] ∧
      w.list.actions.countP (Action.isProxyOf 0) = 2 ∧
      w.links.map ActionListLink.data = [[10]]) :=
  ⟨⟨{ list := { actions := [.leaf 7 true], position := 1 },
      links := [{ data := [10], position := 1 }],
      trace := [.redo (.linked 0 0), .undo (.linked 0 0), .redo (.leaf 7 true)] },
     World.run_step _ _ _ oneValue _ rfl
       (World.run_step _ _ _
         { list := { actions := [.linked 0 0], position := 0 },
           links := [{ data := [10], position := 1 }],
           trace := [.redo (.linked 0 0), .undo (.linked 0 0)] }
         _ rfl (World.run_step _ _ _ _ _ rfl rfl)),
     rfl, rfl, rfl⟩,
    ⟨{ list := { actions := [.linked 0 0, .linked 0 1], position := 2 },
       links := [{ data := [10], position := 1 }],
       trace := [.redo (.linked 0 0), .redo (.linked 0 1)] },
     World.run_step _ _ _ oneValue _ rfl
       (World.run_step _ _ _ twoValues _ rfl (World.run_step _ _ _ _ _ rfl rfl)),
     rfl, rfl, rfl⟩⟩

/-- C11: an unrelated commit disturbs a link.  The link of `twoValues` has no future, the
history has none, and the link's position 2 is one plus the tag of its last proxy; after the
commit of a leaf the link holds `[10]` at position 1, and the same happens when another
link bound to the same history calls `addAction`. -/
theorem unrelated_commit_disturbs_link :
    World.run [.addAction 0 10, .addAction 0 20] (World.fresh 1) = some twoValues ∧
    twoValues.list.position = twoValues.list.actions.length ∧
    twoValues.links.get? 0 = some { data := [10, 20], position := 2 } ∧
    expectedPosition twoValues.list.actions 0 twoValues.list.position = 2 ∧
    (Action.leaf 7 true).isProxyOf 0 = false ∧
    (∃ w, twoValues.add (.leaf 7 true) = some w ∧
      w.links.get? 0 = some { data := [10], position := 1 }) ∧
    twoLinks.list = twoValues.list ∧
    twoLinks.links.get? 0 = twoValues.links.get? 0 ∧
    (∃ w, twoLinks.addAction 1 99 = some w ∧
      w.list.actions = [.linked 0 0, .linked 0 1, .linked 1 0] ∧
      w.links.get? 0 = some { data := [10], position := 1 }) :=
  ⟨World.run_twoValues, rfl, rfl, rfl, rfl,
    ⟨{ list := { actions := [.linked 0 0, .linked 0 1, .leaf 7 true], position := 3 },
       links := [{ data := [10], position := 1 }],
       trace := [.redo (.linked 0 0), .redo (.linked 0 1), .redo (.leaf 7 true)] },
     rfl, rfl⟩,
    rfl, rfl,
    ⟨{ list := { actions := [.linked 0 0, .linked 0 1, .linked 1 0], position := 3 },
       links := [{ data := [10], position := 1 }, { data := [99], position := 1 }],
       trace := [.redo (.linked 0 0), .redo (.linked 0 1), .redo (.linked 1 0)] },
     rfl, rfl, rfl⟩⟩

/-- C14: the queries.  In a history with `position ≤ size`, `canUndo` returns; it is true
exactly when the position is positive and the action just before the cursor reports
`canUndo`, so a permanent leaf there, or a composite holding a child that is not undoable,
blocks undo; `canRedo` is true exactly when the position is below the size. -/
theorem query_definitions (l : ActionList) (hpos : l.position ≤ l.actions.length) :
    (l.canUndo = some true ∨ l.canUndo = some false) ∧
    (l.canUndo = some true ↔
      0 < l.position ∧
        ∃ a, l.actions.get? (l.position - 1) = some a ∧ a.canUndo = true) ∧
    (∀ x, l.actions.get? (l.position - 1) = some (.leaf x false) →
      l.canUndo = some false) ∧
    (∀ cs c, l.actions.get? (l.position - 1) = some (.bundled cs) → c ∈ cs →
      c.canUndo = false → l.canUndo = some false) ∧
    (l.canRedo = true ↔ l.position < l.actions.length) := by
  have htot := ActionList.canUndo_isSome l hpos
  have hiff := ActionList.canUndo_eq_true_iff l
  refine ⟨htot, hiff, ?_, ?_, ?_⟩
  · intro x hx
    rcases htot with ht | hf
    · obtain ⟨_, a, ha, hc⟩ := hiff.mp ht
      rw [hx] at ha
      cases ha
      cases hc
    · exact hf
  · intro cs c hx hmem hc
    rcases htot with ht | hf
    · obtain ⟨_, a, ha, hca⟩ := hiff.mp ht
      rw [hx] at ha
      cases ha
      have hall := (Action.canUndoAll_eq_true_iff cs).mp (by simpa [Action.canUndo] using hca)
      rw [hall c hmem] at hc
      cases hc
    · exact hf
  · simp [ActionList.canRedo]

/-- Witness of C14: a composite holding a permanent child sits just before the cursor. -/
theorem query_definitions_witness :
    (2 : Nat) ≤ [Action.leaf 1 true, .bundled [.leaf 2 true, .leaf 3 false]].length ∧
    (ActionList.mk [.leaf 1 true, .bundled [.leaf 2 true, .leaf 3 false]] 2).canUndo
      = some false ∧
    (ActionList.mk [.leaf 1 true, .bundled [.leaf 2 true, .leaf 3 false]] 2).canRedo
      = false :=
  ⟨by decide,
    (query_definitions ⟨[.leaf 1 true, .bundled [.leaf 2 true, .leaf 3 false]], 2⟩
      (by decide)).2.2.2.1 [.leaf 2 true, .leaf 3 false] (.leaf 3 false) rfl
      (by simp) rfl,
    by
      have h := (query_definitions
        ⟨[.leaf 1 true, .bundled [.leaf 2 true, .leaf 3 false]], 2⟩ (by decide)).2.2.2.2
      cases hc : (ActionList.mk
        [.leaf 1 true, .bundled [.leaf 2 true, .leaf 3 false]] 2).canRedo with
      | false => rfl
      | true => exact absurd (h.mp hc) (by decide)⟩

/-- C15: `BundledAction::canUndo` is the conjunction over the children: a composite is
undoable exactly when every child is; the empty composite is undoable; and `add` makes an
undoable composite non-undoable exactly when the added child is not undoable. -/
theorem bundled_canUndo_is_and (cs : List Action) (child : Action) :
    ((Action.bundled cs).canUndo = true ↔ ∀ c ∈ cs, c.canUndo = true) ∧
    (Action.bundled []).canUndo = true ∧
    (Action.bundled (BundledAction.add cs child)).canUndo
      = ((Action.bundled cs).canUndo && child.canUndo) ∧
    ((Action.bundled cs).canUndo = true →
      ((Action.bundled (BundledAction.add cs child)).canUndo = false ↔
        child.canUndo = false)) := by
  have happ : (Action.bundled (BundledAction.add cs child)).canUndo
      = ((Action.bundled cs).canUndo && child.canUndo) := by
    simp only [Action.canUndo, BundledAction.add]
    exact Action.canUndoAll_append cs child
  refine ⟨?_, rfl, happ, ?_⟩
  · simp only [Action.canUndo]
    exact Action.canUndoAll_eq_true_iff cs
  · intro h
    rw [happ, h]
    simp

/-- Witness of C15: adding a permanent leaf to an undoable composite of two leaves. -/
theorem bundled_canUndo_is_and_witness :
    (Action.bundled [.leaf 1 true, .leaf 2 true]).canUndo = true ∧
    ((Action.bundled (BundledAction.add [.leaf 1 true, .leaf 2 true] (.leaf 3 false))).canUndo
      = false ↔ (Action.leaf 3 false).canUndo = false) :=
  ⟨by decide,
    (bundled_canUndo_is_and [.leaf 1 true, .leaf 2 true] (.leaf 3 false)).2.2.2 (by decide)⟩

/-- C17: `ActionList::visit` does not unroll composites.  It passes every top-level action
to `func` as it is, a composite included, and none of the composite's children; the
specification's traversal of the same history yields the children instead. -/
theorem visit_does_not_unroll :
    (∀ l : ActionList, l.visit = l.actions) ∧
    ActionList.visit ⟨[.leaf 0 true, .bundled [.leaf 1 true, .leaf 2 true]], 2⟩
      = [.leaf 0 true, .bundled [.leaf 1 true, .leaf 2 true]] ∧
    unrolledOneLevel [.leaf 0 true, .bundled [.leaf 1 true, .leaf 2 true]]
      = [.leaf 0 true, .leaf 1 true, .leaf 2 true] :=
  ⟨fun _ => rfl, rfl, rfl⟩

/-- C18: the link traversals partition the values at the position.  With
`position ≤ data.size`, `visitPast` yields the values below the position in order,
`visitFuture` the values from the position on in order, and the two together are what
`visit` yields. -/
theorem link_traversals_partition (k : ActionListLink T)
    (hpos : k.position ≤ k.data.length) :
    k.visitPast = some (k.data.take k.position) ∧
    k.visitFuture = some (k.data.drop k.position) ∧
    k.visit = some (k.data.take k.position ++ k.data.drop k.position) := by
  refine ⟨?_, ?_, ?_⟩
  · rw [ActionListLink.visitPast, ActionListLink.visitFrom_eq k.data k.position 0 (by omega)]
    rfl
  · rw [ActionListLink.visitFuture,
      ActionListLink.visitFrom_eq k.data (k.data.length - k.position) k.position (by omega)]
    congr 1
    apply List.take_of_length_le
    rw [List.length_drop]
  · rw [List.take_append_drop]
    rfl

/-- Witness of C18: a link holding three values with one undone. -/
theorem link_traversals_partition_witness :
    (2 : Nat) ≤ [10, 20, 30].length ∧
    (ActionListLink.mk [10, 20, 30] 2).visitPast = some [10, 20] ∧
    (ActionListLink.mk [10, 20, 30] 2).visitFuture = some [30] ∧
    (ActionListLink.mk [10, 20, 30] 2).visit = some ([10, 20] ++ [30]) :=
  ⟨by decide, link_traversals_partition ⟨[10, 20, 30], 2⟩ (by decide)⟩

/-- C19, as stated, fails at the largest tag.  A caller commits a proxy of the link
tagged `SIZE_MAX` (the `LinkedAction` constructor is public) and the link then adds the
value 10; the proxy with the lowest index below the cursor is the one tagged `SIZE_MAX`,
and `sync` sets the link's position to 0, not to one plus that tag. -/
theorem sync_wraps_at_largest_tag :
    ∃ w w' : World Nat,
      World.run [.add (.linked 0 18446744073709551615), .addAction 0 10] (World.fresh 1)
        = some w ∧
      w.list.position ≤ w.list.actions.length ∧
      w.links.get? 0 = some { data := [10], position := 1 } ∧
      firstProxyTag 0 (w.list.actions.take w.list.position) = some 18446744073709551615 ∧
      w.sync 0 = some w' ∧
      w'.links.get? 0 = some { data := [10], position := 0 } ∧
      (0 : Nat) ≠ 18446744073709551615 + 1 :=
  ⟨{ list := { actions := [.linked 0 18446744073709551615, .linked 0 0], position := 2 },
     links := [{ data := [10], position := 1 }],
     trace := [.redo (.linked 0 18446744073709551615), .redo (.linked 0 0)] },
    { list := { actions := [.linked 0 18446744073709551615, .linked 0 0], position := 2 },
      links := [{ data := [10], position := 0 }],
      trace := [.redo (.linked 0 18446744073709551615), .redo (.linked 0 0)] },
    World.run_step _ _ _
      { list := { actions := [.linked 0 18446744073709551615], position := 1 },
        links := [{ data := [], position := 0 }],
        trace := [.redo (.linked 0 18446744073709551615)] } _ rfl
      (World.run_step _ _ _ _ _ rfl rfl),
    by decide, rfl, rfl, rfl, rfl, by decide⟩

/-- C19, amended: what `sync` computes.  In a history with `position ≤ size`, `sync` of a
bound link returns and changes nothing but that link's position: the history, the trace,
the link's values and the other links are untouched.  The new position is the `size_t`
sum of one and the tag of the link's proxy with the lowest index below the history's
position, which is one plus the tag for every tag below `SIZE_MAX` and 0 for the tag
`SIZE_MAX`; it is the old position when there is no such proxy. -/
theorem sync_computes_lowest_proxy (w : World T) (me : Nat) (k : ActionListLink T)
    (hpos : w.list.position ≤ w.list.actions.length)
    (hk : w.links.get? me = some k) :
    (∃ w', w.sync me = some w' ∧ w'.list = w.list ∧ w'.trace = w.trace ∧
      w'.links = w.links.set me
        { data := k.data,
          position :=
            match firstProxyTag me (w.list.actions.take w.list.position) with
            | some idx => (idx + 1) % sizeModulus
            | none => k.position }) ∧
    (∀ idx, idx < sizeModulus - 1 → (idx + 1) % sizeModulus = idx + 1) ∧
    (sizeModulus - 1 + 1) % sizeModulus = 0 := by
  refine ⟨⟨w.setLink me
    { data := k.data,
      position :=
        match firstProxyTag me (w.list.actions.take w.list.position) with
        | some idx => (idx + 1) % sizeModulus
        | none => k.position }, ?_, rfl, rfl, rfl⟩, ?_, ?_⟩
  · simp only [World.sync, hk,
      syncLoop_eq w.list.actions me w.list.position k.position hpos]
  · intro idx h
    exact Nat.mod_eq_of_lt (by omega)
  · decide

/-- Witness of C19 (amended): two proxies of the link lie below the cursor; the lowest is
tagged 0, so the position becomes 1. -/
theorem sync_computes_lowest_proxy_witness :
    twoValues.list.position ≤ twoValues.list.actions.length ∧
    twoValues.links.get? 0 = some { data := [10, 20], position := 2 } ∧
    firstProxyTag 0 (twoValues.list.actions.take twoValues.list.position) = some 0 ∧
    ∃ w', twoValues.sync 0 = some w' ∧ w'.list = twoValues.list ∧
      w'.trace = twoValues.trace ∧
      w'.links = twoValues.links.set 0
        { data := [10, 20],
          position :=
            match firstProxyTag 0
              (twoValues.list.actions.take twoValues.list.position) with
            | some idx => (idx + 1) % sizeModulus
            | none => 2 } :=
  ⟨by decide, rfl, rfl,
    (sync_computes_lowest_proxy twoValues 0 { data := [10, 20], position := 2 }
      (by decide) rfl).1⟩

/-- C20: the tags of a link's proxies are not strictly increasing.  After four `addAction`
calls on a fresh link the history holds the link's proxies tagged 0, 1, 2, 2. -/
theorem proxy_tags_repeat :
    ∃ w : World Nat,
      World.run [.addAction 0 10, .addAction 0 20, .addAction 0 30, .addAction 0 40]
        (World.fresh 1) = some w ∧
      proxyTags 0 w.list.actions = [0, 1, 2, 2] ∧
      ¬ (proxyTags 0 w.list.actions).Pairwise (fun a b => a < b) :=
  ⟨{ list := { actions := [.linked 0 0, .linked 0 1, .linked 0 2, .linked 0 2],
               position := 4 },
     links := [{ data := [10, 40], position := 2 }],
     trace := [.redo (.linked 0 0), .redo (.linked 0 1), .redo (.linked 0 2),
       .redo (.linked 0 2)] },
    World.run_step _ _ _ oneValue _ rfl
      (World.run_step _ _ _ twoValues _ rfl
        (World.run_step _ _ _ threeCalls _ rfl (World.run_step _ _ _ _ _ rfl rfl))),
    rfl, by decide⟩

/-- C12: the history's cursor stays in range.  From an empty history with any number of
links bound, every sequence of `add`, `clearFuture`, `undo`, `redo` and `addAction` calls
(whose proxies name bound links) returns at every step, and after every prefix of it
`position ≤ size` holds and `canUndo` returns: no `at` access is out of range. -/
theorem history_cursor_in_range (n : Nat) (ops : List (Op T)) (m : Nat)
    (hops : ops.all (Op.bound n) = true) :
    ∃ w, World.run (ops.take m) (World.fresh n) = some w ∧
      w.list.position ≤ w.list.actions.length ∧
      (w.list.canUndo = some true ∨ w.list.canUndo = some false) := by
  have htake : (ops.take m).all (Op.bound n) = true := by
    rw [List.all_eq_true] at hops ⊢
    intro x hx
    exact hops x (List.mem_of_mem_take hx)
  obtain ⟨w, hr, _, hp, _⟩ := World.run_spec n (ops.take m) (World.fresh n)
    (World.fresh_links_length n)
    (by rw [World.fresh_list]; exact Nat.le_refl 0)
    (by rw [World.fresh_list]; rfl)
    htake
  exact ⟨w, hr, hp, ActionList.canUndo_isSome w.list hp⟩

/-- Witness of C12: commits of a leaf, a composite and a proxy, mixed with the other
calls, on a history with one link. -/
theorem history_cursor_in_range_witness :
    ([Op.add (.leaf 1 true), .addAction 0 10, .undo, .undo, .redo,
        .add (.bundled [.leaf 2 false, .linked 0 5]), .clearFuture, .undo]
      : List (Op Nat)).all (Op.bound 1) = true ∧
    ∃ w, World.run
        (([Op.add (.leaf 1 true), .addAction 0 10, .undo, .undo, .redo,
          .add (.bundled [.leaf 2 false, .linked 0 5]), .clearFuture, .undo]
          : List (Op Nat)).take 8)
        (World.fresh 1) = some w ∧
      w.list.position ≤ w.list.actions.length ∧
      (w.list.canUndo = some true ∨ w.list.canUndo = some false) :=
  ⟨by decide, history_cursor_in_range 1 _ 8 (by decide)⟩

/-- C13, as stated, fails: with a permanent action at index 0 and the cursor at 2 of 3,
two `undo` calls and two `redo` calls end at position 3, and only one undo callback ran. -/
theorem round_trip_fails_on_permanent_action :
    examplePermanent.list.position ≤ examplePermanent.list.actions.length ∧
    2 ≤ examplePermanent.list.position ∧
    ∃ w, World.run [.undo, .undo, .redo, .redo] examplePermanent = some w ∧
      w.list.position = 3 ∧
      w.list.position ≠ examplePermanent.list.position ∧
      w.trace = [.undo (.leaf 2 true), .redo (.leaf 2 true), .redo (.leaf 3 true)] :=
  ⟨by decide, by decide,
    { list := { actions := [.leaf 1 false, .leaf 2 true, .leaf 3 true], position := 3 },
      links := [],
      trace := [.undo (.leaf 2 true), .redo (.leaf 2 true), .redo (.leaf 3 true)] },
    World.run_step _ _ _
      { list := { actions := [.leaf 1 false, .leaf 2 true, .leaf 3 true], position := 1 },
        links := [],
        trace := [.undo (.leaf 2 true)] } _ rfl
      (World.run_step _ _ _
        { list := { actions := [.leaf 1 false, .leaf 2 true, .leaf 3 true], position := 1 },
          links := [],
          trace := [.undo (.leaf 2 true)] } _ rfl
        (World.run_step _ _ _
          { list := { actions := [.leaf 1 false, .leaf 2 true, .leaf 3 true],
                      position := 2 },
            links := [],
            trace := [.undo (.leaf 2 true), .redo (.leaf 2 true)] } _ rfl
          (World.run_step _ _ _ _ _ rfl rfl))),
    rfl, by decide, rfl⟩

/-- C13, amended: undo/redo round trip over undoable actions.  In a history with
`position ≤ size` whose proxies name bound links, if the `N ≤ position` actions just below
the cursor all report `canUndo`, then `N` undos followed by `N` redos return and restore
the position, the actions are unchanged, the undo calls are those of the actions at
`position-1, ..., position-N` in that order, and the redo calls are those of the actions at
`position-N, ..., position-1` in that order. -/
theorem undo_redo_round_trip (w : World T) (N : Nat)
    (hpos : w.list.position ≤ w.list.actions.length)
    (hb : Action.boundAll w.links.length w.list.actions = true)
    (hN : N ≤ w.list.position)
    (hu : ∀ i a, w.list.position - N ≤ i → i < w.list.position →
      w.list.actions.get? i = some a → a.canUndo = true) :
    ∃ w1 w2, World.run (List.replicate N Op.undo) w = some w1 ∧
      World.run (List.replicate N Op.redo) w1 = some w2 ∧
      w1.list.position = w.list.position - N ∧
      w1.list.actions = w.list.actions ∧
      w1.trace = w.trace ++
        Action.undoCallsAll ((w.list.actions.take w.list.position).reverse.take N) ∧
      w2.list.position = w.list.position ∧
      w2.list.actions = w.list.actions ∧
      w2.trace = w1.trace ++
        Action.redoCallsAll ((w.list.actions.drop (w.list.position - N)).take N) := by
  obtain ⟨w1, h1, ha1, hp1, hn1, ht1⟩ := World.run_undos N w hpos hb hN hu
  obtain ⟨w2, h2, ha2, hp2, _, ht2⟩ := World.run_redos N w1
    (by rw [hn1, ha1]; exact hb)
    (by rw [ha1, hp1]; omega)
  refine ⟨w1, w2, h1, h2, hp1, ha1, ht1, ?_, by rw [ha2, ha1], ?_⟩
  · rw [hp2, hp1]
    omega
  · rw [ht2, ha1, hp1]

/-- Witness of C13 (amended): the three commits of `src/src/test.cpp`, all undone and
redone. -/
theorem undo_redo_round_trip_witness :
    ∃ w1 w2,
      World.run (List.replicate 3 Op.undo)
        ({ list := { actions := [.leaf 1 true, .leaf 2 true, .leaf 3 true], position := 3 },
           links := [], trace := [] } : World Nat) = some w1 ∧
      World.run (List.replicate 3 Op.redo) w1 = some w2 ∧
      w1.list.position = 3 - 3 ∧
      w1.list.actions = [.leaf 1 true, .leaf 2 true, .leaf 3 true] ∧
      w1.trace = [] ++
        Action.undoCallsAll
          ((([Action.leaf 1 true, .leaf 2 true, .leaf 3 true]).take 3).reverse.take 3) ∧
      w2.list.position = 3 ∧
      w2.list.actions = [.leaf 1 true, .leaf 2 true, .leaf 3 true] ∧
      w2.trace = w1.trace ++
        Action.redoCallsAll
          ((([Action.leaf 1 true, .leaf 2 true, .leaf 3 true]).drop (3 - 3)).take 3) :=
  undo_redo_round_trip
    { list := { actions := [.leaf 1 true, .leaf 2 true, .leaf 3 true], position := 3 },
      links := [], trace := [] } 3 (by decide) (by decide) (by decide)
    (by
      intro i a _ hi hget
      have hi3 : i < 3 := hi
      interval_cases i <;> simp at hget <;> rw [← hget] <;> rfl)

/-- C16: `BundledAction` applies its children in storage order.  `redo` of a composite
calls `redo` on its children first to last and `undo` calls `undo` on them first to last;
each child's calls start with the call on the child itself, and when no child is a
composite these are exactly one call per child. -/
theorem bundled_applies_children_in_order (cs : List Action) (w : World T)
    (hb : Action.boundAll w.links.length cs = true)
    (hpos : w.list.position ≤ w.list.actions.length) :
    (∃ w', (Action.bundled cs).redo w = some w' ∧
      w'.trace = w.trace ++ Event.redo (.bundled cs) :: (cs.map Action.redoCalls).flatten) ∧
    (∃ w', (Action.bundled cs).undo w = some w' ∧
      w'.trace = w.trace ++ Event.undo (.bundled cs) :: (cs.map Action.undoCalls).flatten) ∧
    (∀ c : Action, c.redoCalls.head? = some (.redo c) ∧ c.undoCalls.head? = some (.undo c)) ∧
    ((∀ c ∈ cs, Action.isBundled c = false) →
      (cs.map Action.redoCalls).flatten = cs.map Event.redo ∧
        (cs.map Action.undoCalls).flatten = cs.map Event.undo) := by
  refine ⟨?_, ?_, Action.calls_head, Action.flatten_calls_of_not_bundled cs⟩
  · obtain ⟨w1, h1, _, _, ht1⟩ :=
      Action.redo_spec (.bundled cs) w (by simpa [Action.bound] using hb)
    refine ⟨w1, h1, ?_⟩
    rw [ht1, Action.redoCalls, Action.redoCallsAll_eq_flatten]
  · obtain ⟨w1, h1, _, _, ht1⟩ :=
      Action.undo_spec (.bundled cs) w (by simpa [Action.bound] using hb) hpos
    refine ⟨w1, h1, ?_⟩
    rw [ht1, Action.undoCalls, Action.undoCallsAll_eq_flatten]

/-- Witness of C16: a composite of three leaves. -/
theorem bundled_applies_children_in_order_witness :
    (∃ w', (Action.bundled [.leaf 1 true, .leaf 2 true, .leaf 3 true]).redo
        (World.empty : World Nat) = some w' ∧
      w'.trace = (World.empty : World Nat).trace ++
        Event.redo (.bundled [.leaf 1 true, .leaf 2 true, .leaf 3 true]) ::
          (([Action.leaf 1 true, .leaf 2 true, .leaf 3 true]).map
            Action.redoCalls).flatten) ∧
    (([Action.leaf 1 true, .leaf 2 true, .leaf 3 true]).map Action.redoCalls).flatten
        = ([Action.leaf 1 true, .leaf 2 true, .leaf 3 true]).map Event.redo ∧
    (([Action.leaf 1 true, .leaf 2 true, .leaf 3 true]).map Action.undoCalls).flatten
        = ([Action.leaf 1 true, .leaf 2 true, .leaf 3 true]).map Event.undo :=
  ⟨(bundled_applies_children_in_order [.leaf 1 true, .leaf 2 true, .leaf 3 true]
      World.empty (by decide) (by decide)).1,
    (bundled_applies_children_in_order [.leaf 1 true, .leaf 2 true, .leaf 3 true]
      (World.empty : World Nat) (by decide) (by decide)).2.2.2
      (by
        intro c hc
        simp at hc
        rcases hc with h | h | h <;> rw [h] <;> rfl)⟩

end MlActions
